import Mathlib

/-!
Verification development for the expression-atlas aggregation engine
(`expression_atlas.py`). The Python source is shallowly embedded:

* text is modelled as `List Char` (`Str`); Python `str.strip`, `str.split`
  with a one-character separator, and substring tests are modelled by
  executable functions on character lists;
* Python floats are idealised as exact rationals plus the special values
  `inf`, `-inf`, `nan` (`PyFloat`); binary rounding of parsed literals and
  of arithmetic is not modelled, and magnitudes beyond the double range are
  kept exact; `round(x, 2)` is modelled as round-half-even at two decimal
  places on exact rationals;
* Python dictionaries are modelled as association lists in insertion order,
  assignment replacing an existing key in place (`storeInsert`);
* the only run-time failure reachable in the engine past file checks,
  `max()` on an empty sequence, is modelled with `Except` (`max_reps_opt`,
  `run_report`).
-/

/-- Text is a list of characters (a Python `str`). -/
abbrev Str := List Char

/-- Characters stripped by Python `str.strip()` (ASCII whitespace;
unicode whitespace is not modelled). -/
def pyWhitespace (c : Char) : Bool :=
  c == ' ' || c == '\t' || c == '\n' || c == '\r' || c == '\x0b' || c == '\x0c'

/-- Python `line.strip()`: drop leading and trailing whitespace. -/
def pyStrip (l : Str) : Str :=
  ((l.dropWhile pyWhitespace).reverse.dropWhile pyWhitespace).reverse

/-- Python `line.split(sep)` for a one-character separator `sep`:
split at every occurrence, keeping empty fields; the result is never
empty (`"".split(sep) == [""]`). -/
def splitOnChar (d : Char) : Str → List Str
  | [] => [[]]
  | c :: rest =>
    if c = d then [] :: splitOnChar d rest
    else
      match splitOnChar d rest with
      | h :: t => (c :: h) :: t
      | [] => [[c]]

/-- `detect_delimiter` (source lines 11-19).  Python's `"\t" in line` is
membership of the character, and `line.count("\t")` for a one-character
needle is the character count. -/
def detect_delimiter (line : Str) : Char :=
  if '\t' ∈ line ∧ line.count '\t' ≥ line.count ',' then '\t'
  else if ';' ∈ line then ';'
  else if ',' ∈ line then ','
  else '\t'

/-- A Python float value: an exact finite rational, one of the two
infinities, or nan. -/
inductive PyFloat where
  | finite (q : ℚ)
  | pinf
  | ninf
  | nan
deriving DecidableEq

/-- Is the value a finite number? -/
def PyFloat.isFinite : PyFloat → Bool
  | .finite _ => true
  | _ => false

/-- Continue a digit group after at least one digit has been consumed:
consume `( _? digit )*`, returning the digits with underscores removed and
the unconsumed remainder.  An underscore is consumed only when a digit
follows it (underscores are legal only *between* digits); a trailing or
doubled underscore is left unconsumed, so a full-consumption check rejects
it, matching CPython underscore rules for numeric literals. -/
def digitsMore : Str → (Str × Str)
  | [] => ([], [])
  | c :: rest =>
    if c.isDigit then
      ((digitsMore rest).1.cons c, (digitsMore rest).2)
    else if c = '_' then
      match rest with
      | d :: rest2 =>
        if d.isDigit then ((digitsMore rest2).1.cons d, (digitsMore rest2).2)
        else ([], c :: rest)
      | [] => ([], [c])
    else ([], c :: rest)

/-- Consume `digit ( _? digit )*` from the front.  The group must *begin*
with a digit — a leading underscore is not consumed (CPython rejects
`"_1"`), so an empty result with a leading underscore makes the caller's
full-consumption or nonemptiness check fail. -/
def digitsTail : Str → (Str × Str)
  | [] => ([], [])
  | c :: rest =>
    if c.isDigit then ((digitsMore rest).1.cons c, (digitsMore rest).2)
    else ([], c :: rest)

/-- Numeric value of a digit string. -/
def digitsToNat (l : Str) : ℕ :=
  l.foldl (fun n c => 10 * n + (c.toNat - 48)) 0

/-- Parse exponent digits after an optional sign; the digits must be
nonempty and consume the whole remainder. -/
def parseExpDigits (sgn : Bool) (r : Str) : Option ℤ :=
  if (digitsTail r).1.isEmpty ∨ ¬ (digitsTail r).2.isEmpty then none
  else some (if sgn then -(digitsToNat (digitsTail r).1 : ℤ) else (digitsToNat (digitsTail r).1 : ℤ))

/-- Parse an optional exponent part (`e`/`E`, optional sign, digits);
an empty remainder means exponent `0`. -/
def parseExp (l : Str) : Option ℤ :=
  match l with
  | [] => some 0
  | c :: r =>
    if c = 'e' ∨ c = 'E' then
      match r with
      | '+' :: r2 => parseExpDigits false r2
      | '-' :: r2 => parseExpDigits true r2
      | _ => parseExpDigits false r
    else none

/-- Powers of ten as rationals, by plain recursion so that the kernel
evaluates them directly. -/
def pow10 : ℕ → ℚ
  | 0 => 1
  | n + 1 => 10 * pow10 n

/-- Exact value of mantissa digits `ip . fp` scaled by `10 ^ e`. -/
def qVal (ip fp : Str) (e : ℤ) : ℚ :=
  ((digitsToNat ip : ℚ) + (digitsToNat fp : ℚ) / pow10 fp.length) *
    (if 0 ≤ e then pow10 e.toNat else 1 / pow10 (-e).toNat)

/-- Parse an unsigned numeric float literal (integer part, optional
fractional part, optional exponent); at least one mantissa digit is
required and the whole string must be consumed. -/
def parseMagnitude (l : Str) : Option ℚ :=
  match (digitsTail l).2 with
  | '.' :: r2 =>
    if (digitsTail l).1.isEmpty ∧ (digitsTail r2).1.isEmpty then none
    else (parseExp (digitsTail r2).2).map fun e =>
      qVal (digitsTail l).1 (digitsTail r2).1 e
  | rest =>
    if (digitsTail l).1.isEmpty then none
    else (parseExp rest).map fun e => qVal (digitsTail l).1 [] e

/-- Lower-case a string character-wise (ASCII, as used by the source). -/
def lowerl (l : Str) : Str := l.map Char.toLower

/-- Model of Python `float(s)`: strip whitespace, optional sign, then a
case-insensitive `inf`/`infinity`/`nan` or a numeric literal; a failed
conversion is the raised `ValueError`. -/
def pyfloat_exc (s : Str) : Except Str PyFloat :=
  match pyStrip s with
  | '+' :: r => pyfloatBody false r
  | '-' :: r => pyfloatBody true r
  | r => pyfloatBody false r
where
  /-- The sign-stripped body of `float(s)`. -/
  pyfloatBody (neg : Bool) (body : Str) : Except Str PyFloat :=
    if lowerl body = "inf".toList ∨ lowerl body = "infinity".toList then
      .ok (if neg then .ninf else .pinf)
    else if lowerl body = "nan".toList then .ok .nan
    else
      match parseMagnitude body with
      | some q => .ok (.finite (if neg then -q else q))
      | none => .error ("could not convert string to float".toList)

/-- The matrix reader's per-cell `try: float(x) / except: None`
(source lines 73-76): a conversion failure becomes the missing marker. -/
def float_cell (s : Str) : Option PyFloat :=
  match pyfloat_exc s with
  | .ok v => some v
  | .error _ => none

/-- IEEE addition on the idealised floats (finite arithmetic exact). -/
def PyFloat.add : PyFloat → PyFloat → PyFloat
  | .finite x, .finite y => .finite (x + y)
  | .nan, _ => .nan
  | _, .nan => .nan
  | .pinf, .ninf => .nan
  | .ninf, .pinf => .nan
  | .pinf, _ => .pinf
  | _, .pinf => .pinf
  | .ninf, _ => .ninf
  | _, .ninf => .ninf

/-- Python `sum(v)` over floats (starts from `0`). -/
def pySum (l : List PyFloat) : PyFloat := l.foldl PyFloat.add (.finite 0)

/-- Division of a float by a positive list length (`sum(v)/len(v)`);
`n = 0` is unreachable in the source (guarded by `if v`). -/
def PyFloat.divNat : PyFloat → ℕ → PyFloat
  | .finite x, n => .finite (x / (n : ℚ))
  | .pinf, _ => .pinf
  | .ninf, _ => .ninf
  | .nan, _ => .nan

/-- Round-half-even to an integer, as Python `round` ties are resolved;
a non-tie rounds to the nearest integer (`Rat.floor` is used directly so
the kernel can evaluate). -/
def roundHalfEvenZ (q : ℚ) : ℤ :=
  if q - q.floor = 1 / 2 then (if 2 ∣ q.floor then q.floor else q.floor + 1)
  else (q + 1 / 2).floor

/-- Python `round(q, 2)` on an exact rational. -/
def round2q (q : ℚ) : ℚ := (roundHalfEvenZ (q * 100) : ℚ) / 100

/-- Python `round(x, 2)` on a float: special values round to themselves. -/
def PyFloat.round2 : PyFloat → PyFloat
  | .finite x => .finite (round2q x)
  | s => s

deriving instance DecidableEq for Except

/-- Association-list lookup, first match wins (model of a dict read). -/
def lookupA (g : Str) : List (Str × β) → Option β
  | [] => none
  | p :: t => if p.1 = g then some p.2 else lookupA g t

/-- First-some choice on options. -/
def oOr (a b : Option β) : Option β :=
  match a with
  | some x => some x
  | none => b

/-- Python dict assignment `d[k] = v`: replace in place if the key exists
(keeping its insertion position), otherwise append at the end. -/
def storeInsert (st : List (Str × β)) (k : Str) (v : β) : List (Str × β) :=
  if (lookupA k st).isSome then
    st.map fun p => if p.1 = k then (k, v) else p
  else st ++ [(k, v)]

/-- An expression row: one cell per sample column, each a parsed float or
the missing marker `none`. -/
abbrev Row := List (Option PyFloat)

/-- Total list indexing: the `i`-th element, if any (Python `l[i]` under a
bounds guard). -/
def nthO : List α → ℕ → Option α
  | [], _ => none
  | a :: _, 0 => some a
  | _ :: t, n + 1 => nthO t n

/-- The cell of a row at column `i`: `none` both for an out-of-range index
and for a stored missing value — exactly the short-circuit guard
`i < len(vals) and vals[i] is not None` of the source. -/
def cellAt (vals : Row) (i : ℕ) : Option PyFloat :=
  match nthO vals i with
  | some c => c
  | none => none

/-- One matrix data line (source lines 68-76): strip, split on the
header-detected delimiter, first field is the gene id, remaining fields
parsed with `float` under `try/except`. -/
def parseRow (d : Char) (line : Str) : Str × Row :=
  ((splitOnChar d (pyStrip line)).headD [],
   ((splitOnChar d (pyStrip line)).drop 1).map float_cell)

/-- The matrix row loop (source lines 67-79): retain rows whose gene id is
in the requested gene set (dict assignment, so a later duplicate
overwrites), and break as soon as the store size equals the gene-set size.
Returns the final store and the number of data lines consumed. -/
def read_matrix_aux (gs : Finset Str) (d : Char) :
    List Str → List (Str × Row) → List (Str × Row) × ℕ
  | [], st => (st, 0)
  | line :: rest, st =>
    if (parseRow d line).1 ∈ gs then
      if (storeInsert st (parseRow d line).1 (parseRow d line).2).length = gs.card then
        (storeInsert st (parseRow d line).1 (parseRow d line).2, 1)
      else
        ((read_matrix_aux gs d rest (storeInsert st (parseRow d line).1 (parseRow d line).2)).1,
         (read_matrix_aux gs d rest (storeInsert st (parseRow d line).1 (parseRow d line).2)).2 + 1)
    else
      ((read_matrix_aux gs d rest st).1, (read_matrix_aux gs d rest st).2 + 1)

/-- The retained expression store for the given gene set, delimiter and
data lines (`expression_data` in the source). -/
def expression_data (gs : Finset Str) (d : Char) (lines : List Str) : List (Str × Row) :=
  (read_matrix_aux gs d lines []).1

/-- How many data lines the matrix reader consumes before stopping. -/
def lines_consumed (gs : Finset Str) (d : Char) (lines : List Str) : ℕ :=
  (read_matrix_aux gs d lines []).2

/-- One step of the group assigner (source lines 62-66): a fresh label
opens a new group and is appended to the order; the column index is
appended to its group's list. -/
def addSample (acc : List (Str × List ℕ) × List Str) (i : ℕ) (s : Str) :
    List (Str × List ℕ) × List Str :=
  if (lookupA s acc.1).isSome then
    (acc.1.map fun p => if p.1 = s then (p.1, p.2 ++ [i]) else p, acc.2)
  else (acc.1 ++ [(s, [i])], acc.2 ++ [s])

/-- The group assigner's `enumerate(samples)` loop, carrying the next
column index. -/
def group_assign_aux : ℕ → List Str → (List (Str × List ℕ) × List Str) →
    List (Str × List ℕ) × List Str
  | _, [], acc => acc
  | i, s :: rest, acc => group_assign_aux (i + 1) rest (addSample acc i s)

/-- `group_to_indices` and `group_order` built from the sample labels. -/
def group_assign (samples : List Str) : List (Str × List ℕ) × List Str :=
  group_assign_aux 0 samples ([], [])

/-- The distinct labels of a list in order of first appearance (the
specification's description of `GroupOrder`). -/
def firstSeen : List Str → List Str
  | [] => []
  | s :: t => s :: (firstSeen t).filter fun x => decide (x ≠ s)

/-- The column indices carrying a given label, in column order (the
specification's description of one group's index list). -/
def idxsOf (s : Str) (samples : List Str) : List ℕ :=
  (List.range samples.length).filter fun i => decide ((nthO samples i).getD [] = s)

/-- Python's substring test `needle in hay`. -/
def is_substring (needle : Str) : Str → Bool
  | [] => needle.isEmpty
  | c :: rest => needle.isPrefixOf (c :: rest) || is_substring needle rest

/-- Does a header label case-insensitively contain both `gene` and `id`
(source line 92)? -/
def isGeneIdHeader (h : Str) : Bool :=
  is_substring "gene".toList (lowerl h) && is_substring "id".toList (lowerl h)

/-- The annotation gene-id column scan (source lines 91-94): first
matching header index, `0` if none matches. -/
def gene_col_aux : ℕ → List Str → ℕ
  | _, [] => 0
  | i, h :: t => if isGeneIdHeader h then i else gene_col_aux (i + 1) t

/-- `gene_col` for an annotation header. -/
def gene_col_of (headers : List Str) : ℕ := gene_col_aux 0 headers

/-- Index of the first header field satisfying the gene-id rule (the
specification's left-to-right first-match description). -/
def firstMatchIdx : List Str → Option ℕ
  | [] => none
  | h :: t => if isGeneIdHeader h then some 0 else (firstMatchIdx t).map (· + 1)

/-- One annotation data line (source lines 95-98): re-detect the delimiter
on the *raw* line (`detect_delimiter(line)` — Python's line still carries
its trailing newline, which contains no candidate delimiter and so cannot
change the detection), then split the *stripped* line on it
(`line.strip().split(...)`); rows with at most `gc` fields yield no
entry. -/
def annot_row_entry (gc : ℕ) (line : Str) : Option (Str × List Str) :=
  if gc < (splitOnChar (detect_delimiter line) (pyStrip line)).length then
    some ((nthO (splitOnChar (detect_delimiter line) (pyStrip line)) gc).getD [],
          splitOnChar (detect_delimiter line) (pyStrip line))
  else none

/-- `annot_data` built from the annotation data lines: each accepted row
is written to the dict under its gene-id field. -/
def annot_data_of (gc : ℕ) (rows : List Str) : List (Str × List Str) :=
  rows.foldl
    (fun st line =>
      match annot_row_entry gc line with
      | some kv => storeInsert st kv.1 kv.2
      | none => st)
    []

/-- The in-range, non-missing values of a row at the given column indices
(source line 111), via `cellAt` which models the comprehension's
short-circuit guard. -/
def groupValues (vals : Row) (idxs : List ℕ) : List PyFloat :=
  idxs.filterMap fun i => cellAt vals i

/-- Per-group mean (source line 112): rounded average of the present
values, or the missing marker when no value is present. -/
def groupMean (vals : Row) (idxs : List ℕ) : Option PyFloat :=
  if (groupValues vals idxs).isEmpty then none
  else some (PyFloat.round2
    (PyFloat.divNat (pySum (groupValues vals idxs)) (groupValues vals idxs).length))

/-- The `means` list of one gene, aligned to the group order
(source lines 109-113). -/
def means_for (order : List Str) (gti : List (Str × List ℕ)) (vals : Row) :
    List (Option PyFloat) :=
  order.map fun s => groupMean vals ((lookupA s gti).getD [])

/-- The `pts` list of one gene: the same means paired with their group
labels (source line 114). -/
def pts_for (order : List Str) (gti : List (Str × List ℕ)) (vals : Row) :
    List (Str × Option PyFloat) :=
  order.map fun s => (s, groupMean vals ((lookupA s gti).getD []))

/-- `line_series` (source lines 103-115): one named entry per gene of the
gene list that has an expression row, in gene-list order. -/
def line_series (gl : List Str) (ed : List (Str × Row)) (order : List Str)
    (gti : List (Str × List ℕ)) : List (Str × List (Option PyFloat)) :=
  gl.filterMap fun g => (lookupA g ed).map fun vals => (g, means_for order gti vals)

/-- `heatmap_series` (source lines 103-117): point entries per gene,
then the whole list reversed. -/
def heatmap_series (gl : List Str) (ed : List (Str × Row)) (order : List Str)
    (gti : List (Str × List ℕ)) : List (Str × List (Str × Option PyFloat)) :=
  (gl.filterMap fun g => (lookupA g ed).map fun vals => (g, pts_for order gti vals)).reverse

/-- The claim-side list of present values: filter the in-range non-missing
indices, then read the value at each. -/
def present_values (vals : Row) (idxs : List ℕ) : List PyFloat :=
  (idxs.filter fun i => decide (i < vals.length) && (cellAt vals i).isSome).map
    fun i => (cellAt vals i).getD (.finite 0)

/-- The claim-side per-group mean: rounded arithmetic average of the
present values, the missing marker (never `0`) when there is none. -/
def mean_spec (vals : Row) (idxs : List ℕ) : Option PyFloat :=
  if present_values vals idxs = [] then none
  else some (PyFloat.round2
    (PyFloat.divNat (pySum (present_values vals idxs)) (present_values vals idxs).length))

/-- `max(len(v) for v in group_to_indices.values())` (source line 120):
`none` models the `ValueError` Python raises on an empty sequence. -/
def max_reps_opt (gti : List (Str × List ℕ)) : Option ℕ :=
  match gti.map fun p => p.2.length with
  | [] => none
  | a :: t => some (t.foldl max a)

/-- The points of one replicate slot `r` (source lines 129-132): for each
group in order, the rounded value at the group's `r`-th column index when
that index exists, is in range and the cell is present. -/
def dot_pts (vals : Row) (gti : List (Str × List ℕ)) (order : List Str) (r : ℕ) :
    List (Str × PyFloat) :=
  order.filterMap fun s =>
    (nthO ((lookupA s gti).getD []) r).bind fun i =>
      (cellAt vals i).map fun v => (s, PyFloat.round2 v)

/-- Python `f"Rep {n}"`. -/
def rep_name (n : ℕ) : Str := "Rep ".toList ++ Nat.toDigits 10 n

/-- One gene's replicate series (source lines 126-134): slots `0` to
`maxReps - 1`, a slot yielding no point at all is dropped entirely. -/
def dot_series_for (vals : Row) (gti : List (Str × List ℕ)) (order : List Str)
    (maxReps : ℕ) : List (Str × List (Str × PyFloat)) :=
  (List.range maxReps).filterMap fun r =>
    if (dot_pts vals gti order r).isEmpty then none
    else some (rep_name (r + 1), dot_pts vals gti order r)

/-- `dot_data` (source lines 121-135): per gene with an expression row,
its list of named replicate series. -/
def dot_data (gl : List Str) (ed : List (Str × Row)) (order : List Str)
    (gti : List (Str × List ℕ)) (maxReps : ℕ) :
    List (Str × List (Str × List (Str × PyFloat))) :=
  gl.filterMap fun g => (lookupA g ed).map fun vals =>
    (g, dot_series_for vals gti order maxReps)

/-- Does the group have a present value at replicate slot `r` for this
row (claim-side reading of the slot guard)? -/
def slot_present (vals : Row) (idxs : List ℕ) (r : ℕ) : Bool :=
  match nthO idxs r with
  | some i => (cellAt vals i).isSome
  | none => false

/-- The value a group contributes at replicate slot `r` (meaningful when
`slot_present`). -/
def slot_value (vals : Row) (idxs : List ℕ) (r : ℕ) : PyFloat :=
  match nthO idxs r with
  | some i => (cellAt vals i).getD (.finite 0)
  | none => .finite 0

/-- Claim-side slot points: the groups (in order) with a present value at
slot `r`, each paired with its rounded value. -/
def dot_pts_spec (vals : Row) (gti : List (Str × List ℕ)) (order : List Str) (r : ℕ) :
    List (Str × PyFloat) :=
  (order.filter fun s => slot_present vals ((lookupA s gti).getD []) r).map
    fun s => (s, PyFloat.round2 (slot_value vals ((lookupA s gti).getD []) r))

/-- The per-row cell loop (source lines 71-76) on a list of fields:
each field is converted with `float` under `try/except`, a failure
appending the missing marker instead of propagating. -/
def row_values (parts : List Str) : Row := parts.map float_cell

/-- The value of the *last* entry with the given key in a list of
key-value pairs (`none` if the key never occurs): later entries take
precedence over earlier ones. -/
def lastValue (k : Str) : List (Str × β) → Option β
  | [] => none
  | p :: t => oOr (lastValue k t) (if p.1 = k then some p.2 else none)

/-- The data bundle the engine hands to the renderer. -/
structure ReportData where
  groupOrder : List Str
  lineSeries : List (Str × List (Option PyFloat))
  heatmapSeries : List (Str × List (Str × Option PyFloat))
  dotData : List (Str × List (Str × List (Str × PyFloat)))
  annotHeaders : List Str
  geneCol : ℕ
  annotIndex : List (Str × List Str)

/-- The whole engine run past the file-existence checks (`main`, source
lines 48-135): read the gene list, the matrix header, groups, the
expression store, the optional annotation table, then the aggregation
stage; the `max()` call on zero groups is the one reachable failure. -/
def run_report (matrixLines geneLines : List Str) (annotLines : Option (List Str)) :
    Except Str ReportData :=
  let gene_list := (geneLines.map pyStrip).filter fun l => !l.isEmpty
  let gene_set := gene_list.toFinset
  let header := pyStrip (matrixLines.headD [])
  let delim := detect_delimiter header
  let samples := (splitOnChar delim header).drop 1
  let ga := group_assign samples
  let ed := expression_data gene_set delim (matrixLines.drop 1)
  let annot : List Str × ℕ × List (Str × List Str) :=
    match annotLines with
    | none => ([], 0, [])
    | some als =>
      let first := pyStrip (als.headD [])
      let hdr := splitOnChar (detect_delimiter first) first
      (hdr, gene_col_of hdr, annot_data_of (gene_col_of hdr) (als.drop 1))
  match max_reps_opt ga.1 with
  | none => .error "max() arg is an empty sequence".toList
  | some m =>
    .ok { groupOrder := ga.2
          lineSeries := line_series gene_list ed ga.2 ga.1
          heatmapSeries := heatmap_series gene_list ed ga.2 ga.1
          dotData := dot_data gene_list ed ga.2 ga.1 m
          annotHeaders := annot.1
          geneCol := annot.2.1
          annotIndex := annot.2.2 }

/-! ## General lemmas -/

theorem splitOnChar_ne_nil (d : Char) (l : Str) : splitOnChar d l ≠ [] := by
  cases l with
  | nil => simp [splitOnChar]
  | cons c rest =>
    simp only [splitOnChar]
    split
    · simp
    · split <;> simp_all

theorem getD_map_of_lt {α β : Type} (f : α → β) (l : List α) (i : ℕ) (h : i < l.length)
    (d : α) (d2 : β) : (l.map f).getD i d2 = f (l.getD i d) := by
  simp [List.getD, List.getElem?_map, List.getElem?_eq_getElem, h]

/-! ## C7: delimiter detection -/

/-- C7: `detect_delimiter` is total (it is a Lean function, and the empty
line yields a tab) and deterministic under re-invocation, and it follows
the priority rule: tab when a tab occurs and tabs are at least as frequent
as commas; else semicolon when present; else comma when present; else
tab. -/
theorem c7_detect_delimiter (l : Str) :
    detect_delimiter l = detect_delimiter l
    ∧ detect_delimiter [] = '\t'
    ∧ detect_delimiter l =
        (if 1 ≤ l.count '\t' ∧ l.count ',' ≤ l.count '\t' then '\t'
         else if 1 ≤ l.count ';' then ';'
         else if 1 ≤ l.count ',' then ','
         else '\t') := by
  refine ⟨rfl, rfl, ?_⟩
  have ht : ('\t' ∈ l ∧ l.count '\t' ≥ l.count ',') ↔
      (1 ≤ l.count '\t' ∧ l.count ',' ≤ l.count '\t') := by
    rw [← List.count_pos_iff (a := '\t')]
    exact Iff.rfl
  have hs : (';' ∈ l) ↔ (1 ≤ l.count ';') := List.count_pos_iff.symm
  have hc : (',' ∈ l) ↔ (1 ≤ l.count ',') := List.count_pos_iff.symm
  simp only [detect_delimiter, ht, hs, hc]

/-! ## C9: cell parsing never raises -/

/-- C9 counterexample: the field `"inf"` does not parse as a *finite*
number — Python `float("inf")` succeeds with the infinite value — and the
cell is stored as that value, not as the missing marker, refuting the
claim that every field failing to parse as a finite number is recorded as
missing. -/
theorem c9_counterexample :
    pyfloat_exc "inf".toList = .ok PyFloat.pinf
    ∧ float_cell "inf".toList = some PyFloat.pinf
    ∧ float_cell "inf".toList ≠ none
    ∧ PyFloat.pinf.isFinite = false :=
  ⟨by decide, by decide, by decide, rfl⟩

/-- C9 (amended): for every list of data fields, row-level parsing is
total — it yields exactly one cell per field, so no exception aborts the
row — a field on which `float` raises is recorded as the missing marker,
and a field on which `float` succeeds (including non-finite results such
as `inf`) is recorded as the parsed value. -/
theorem c9_cells_never_raise (parts : List Str) :
    (row_values parts).length = parts.length
    ∧ (∀ i, i < parts.length →
        ((∃ e, pyfloat_exc (parts.getD i []) = .error e) →
          (row_values parts).getD i (some (.finite 0)) = none)
        ∧ (∀ v, pyfloat_exc (parts.getD i []) = .ok v →
            (row_values parts).getD i none = some v)) := by
  constructor
  · simp [row_values]
  · intro i hi
    constructor
    · rintro ⟨e, he⟩
      rw [row_values, getD_map_of_lt float_cell parts i hi []]
      simp only [float_cell, he]
    · intro v hv
      rw [row_values, getD_map_of_lt float_cell parts i hi []]
      simp only [float_cell, hv]

/-- Witness for C9's amended theorem at a concrete row: the unparsable
field `"abc"` becomes the missing marker and the field `"1.5"` its
value. -/
theorem c9_cells_witness :
    (row_values ["abc".toList, "1.5".toList]).getD 0 (some (.finite 0)) = none
    ∧ (row_values ["abc".toList, "1.5".toList]).getD 1 none = some (.finite (3 / 2)) := by
  constructor
  · exact ((c9_cells_never_raise ["abc".toList, "1.5".toList]).2 0 (by decide)).1
      ⟨"could not convert string to float".toList, by decide⟩
  · exact ((c9_cells_never_raise ["abc".toList, "1.5".toList]).2 1 (by decide)).2
      (.finite (3 / 2)) (by with_unfolding_all rfl)

/-! ## C3, C4: per-group means, heatmap ordering -/

theorem nthO_some_lt (l : List α) (i : ℕ) (a : α) (h : nthO l i = some a) :
    i < l.length := by
  induction l generalizing i with
  | nil => simp [nthO] at h
  | cons b t ih =>
    cases i with
    | zero => simp
    | succ n =>
      simp only [nthO] at h
      simpa using ih n h

theorem cellAt_some_lt (vals : Row) (i : ℕ) (v : PyFloat) (h : cellAt vals i = some v) :
    i < vals.length := by
  rw [cellAt] at h
  cases hn : nthO vals i with
  | none => rw [hn] at h; exact absurd h (by simp)
  | some c => exact nthO_some_lt vals i c hn

theorem groupValues_cons_none (vals : Row) (i : ℕ) (t : List ℕ) (h : cellAt vals i = none) :
    groupValues vals (i :: t) = groupValues vals t := by
  simp [groupValues, List.filterMap_cons, h]

theorem groupValues_cons_some (vals : Row) (i : ℕ) (t : List ℕ) (v : PyFloat)
    (h : cellAt vals i = some v) :
    groupValues vals (i :: t) = v :: groupValues vals t := by
  simp [groupValues, List.filterMap_cons, h]

theorem present_values_cons_none (vals : Row) (i : ℕ) (t : List ℕ) (h : cellAt vals i = none) :
    present_values vals (i :: t) = present_values vals t := by
  simp [present_values, List.filter_cons, h]

theorem present_values_cons_some (vals : Row) (i : ℕ) (t : List ℕ) (v : PyFloat)
    (h : cellAt vals i = some v) :
    present_values vals (i :: t) = v :: present_values vals t := by
  simp [present_values, List.filter_cons, h, cellAt_some_lt vals i v h]

theorem present_values_eq (vals : Row) (idxs : List ℕ) :
    present_values vals idxs = groupValues vals idxs := by
  induction idxs with
  | nil => rfl
  | cons i t ih =>
    cases h : cellAt vals i with
    | none => rw [present_values_cons_none vals i t h, groupValues_cons_none vals i t h, ih]
    | some v =>
      rw [present_values_cons_some vals i t v h, groupValues_cons_some vals i t v h, ih]

theorem groupMean_eq_mean_spec : @groupMean = @mean_spec := by
  funext vals idxs
  rw [groupMean, mean_spec, present_values_eq]
  simp only [List.isEmpty_iff]

/-- C3: every entry of the line series belongs to a gene of the gene list
with an expression row, and its data is, aligned to the group order, the
per-group mean: the 2-decimal rounded arithmetic average of the in-range
non-missing values at the group's column indices, or the missing marker
(never `0`) when the group has no present value. -/
theorem c3_group_means (gl : List Str) (ed : List (Str × Row)) (order : List Str)
    (gti : List (Str × List ℕ)) :
    line_series gl ed order gti =
      gl.filterMap fun g => (lookupA g ed).map fun vals =>
        (g, order.map fun s => mean_spec vals ((lookupA s gti).getD [])) := by
  rw [line_series]
  congr 1
  funext g
  congr 1
  funext vals
  rw [means_for, groupMean_eq_mean_spec]

theorem pts_for_eq_zip (order : List Str) (gti : List (Str × List ℕ)) (vals : Row) :
    pts_for order gti vals = order.zip (means_for order gti vals) := by
  rw [pts_for, means_for]
  have h := List.zip_map' (fun s => s) (fun s => groupMean vals ((lookupA s gti).getD [])) order
  simpa using h.symm

theorem map_fst_filterMap_lookup {β γ : Type} (ed : List (Str × β)) (f : Str → β → γ)
    (gl : List Str) :
    ((gl.filterMap fun g => (lookupA g ed).map fun v => (g, f g v)).map Prod.fst)
      = gl.filter fun g => (lookupA g ed).isSome := by
  induction gl with
  | nil => rfl
  | cons g t ih =>
    rw [List.filterMap_cons, List.filter_cons]
    cases h : lookupA g ed with
    | none => simpa [h] using ih
    | some v => simp [h, ih]

/-- C4: the heatmap series is the line series' entries with each mean
paired to its group label (the per-gene point ordering is the group order,
unchanged, and the point values are the group-mean values), with the
overall gene ordering reversed; in particular its gene ordering is the
exact reverse of the gene list restricted to genes having an expression
row. -/
theorem c4_heatmap_reversal (gl : List Str) (ed : List (Str × Row)) (order : List Str)
    (gti : List (Str × List ℕ)) :
    heatmap_series gl ed order gti =
      ((line_series gl ed order gti).map fun p => (p.1, order.zip p.2)).reverse
    ∧ (heatmap_series gl ed order gti).map Prod.fst =
        (gl.filter fun g => (lookupA g ed).isSome).reverse := by
  have h1 : (gl.filterMap fun g => (lookupA g ed).map fun vals => (g, pts_for order gti vals))
      = (line_series gl ed order gti).map fun p => (p.1, order.zip p.2) := by
    rw [line_series, List.map_filterMap]
    congr 1
    funext g
    rw [Option.map_map]
    congr 1
    funext vals
    simp [Function.comp, pts_for_eq_zip]
  constructor
  · rw [heatmap_series, h1]
  · rw [heatmap_series, List.map_reverse]
    rw [map_fst_filterMap_lookup ed (fun g vals => pts_for order gti vals) gl]

/-! ## C5: replicate series -/

theorem dot_pts_eq (vals : Row) (gti : List (Str × List ℕ)) (order : List Str) (r : ℕ) :
    dot_pts vals gti order r = dot_pts_spec vals gti order r := by
  induction order with
  | nil => rfl
  | cons s t ih =>
    rw [dot_pts, dot_pts_spec, List.filterMap_cons, List.filter_cons]
    cases hn : nthO ((lookupA s gti).getD []) r with
    | none =>
      have hp : slot_present vals ((lookupA s gti).getD []) r = false := by
        simp [slot_present, hn]
      rw [hp]
      simpa [dot_pts, dot_pts_spec] using ih
    | some i =>
      cases hc : cellAt vals i with
      | none =>
        have hp : slot_present vals ((lookupA s gti).getD []) r = false := by
          simp [slot_present, hn, hc]
        rw [hp]
        simpa [dot_pts, dot_pts_spec, hc] using ih
      | some v =>
        have hp : slot_present vals ((lookupA s gti).getD []) r = true := by
          simp [slot_present, hn, hc]
        have hv : slot_value vals ((lookupA s gti).getD []) r = v := by
          simp [slot_value, hn, hc]
        rw [hp]
        simpa [dot_pts, dot_pts_spec, hc, hv] using ih

theorem filterMap_if_eq_filter {α β : Type} (l : List α) (f : α → List β) (nm : α → Str) :
    (l.filterMap fun r => if (f r).isEmpty then none else some (nm r, f r))
      = (l.map fun r => (nm r, f r)).filter fun q => !q.2.isEmpty := by
  induction l with
  | nil => rfl
  | cons a t ih =>
    rw [List.filterMap_cons, List.map_cons, List.filter_cons]
    by_cases h : (f a).isEmpty
    · simp only [h, if_true, Bool.not_true, if_false]
      simpa using ih
    · simp only [h, if_false, Bool.not_false, if_true]
      simp only [Bool.not_eq_true] at h
      simp [h, ih]

/-- C5: for the globally computed `maxReplicates` (the maximum group size
over all groups), each gene with an expression row gets, per replicate
slot `r` in `0..maxReplicates-1` yielding at least one point, a series
named `Rep r+1` whose points are exactly, in group order, the pairs of
group label and 2-decimal-rounded value for the groups having an in-range
non-missing column index at position `r`; slots with zero points are
omitted entirely. -/
theorem c5_replicates (gl : List Str) (ed : List (Str × Row)) (order : List Str)
    (gti : List (Str × List ℕ)) (M : ℕ) (_hM : max_reps_opt gti = some M) :
    dot_data gl ed order gti M =
      gl.filterMap fun g => (lookupA g ed).map fun vals =>
        (g, ((List.range M).map fun r =>
              (rep_name (r + 1), dot_pts_spec vals gti order r)).filter
              fun q => !q.2.isEmpty) := by
  rw [dot_data]
  congr 1
  funext g
  congr 1
  funext vals
  congr 1
  rw [dot_series_for]
  rw [filterMap_if_eq_filter (List.range M) (fun r => dot_pts vals gti order r)
    (fun r => rep_name (r + 1))]
  simp only [dot_pts_eq]

/-- Witness for C5 at a one-gene, one-group, one-replicate input whose
global maximum group size is `1`. -/
theorem c5_replicates_witness :
    dot_data ["G".toList] [("G".toList, [some (PyFloat.finite 1)])] ["A".toList]
        [("A".toList, [0])] 1 =
      ["G".toList].filterMap fun g =>
        (lookupA g [("G".toList, [some (PyFloat.finite 1)])]).map fun vals =>
          (g, ((List.range 1).map fun r =>
                (rep_name (r + 1), dot_pts_spec vals [("A".toList, [0])] ["A".toList] r)).filter
                fun q => !q.2.isEmpty) :=
  c5_replicates ["G".toList] [("G".toList, [some (PyFloat.finite 1)])] ["A".toList]
    [("A".toList, [0])] 1 (by decide)

/-! ## Dictionary lemmas -/

theorem lookupA_append (g : Str) (l1 l2 : List (Str × β)) :
    lookupA g (l1 ++ l2) = oOr (lookupA g l1) (lookupA g l2) := by
  induction l1 with
  | nil => rfl
  | cons p t ih =>
    simp only [List.cons_append, lookupA]
    by_cases h : p.1 = g
    · simp [h, oOr]
    · simp [h, ih]

theorem lookupA_isSome_iff (k : Str) (st : List (Str × β)) :
    (lookupA k st).isSome ↔ k ∈ st.map Prod.fst := by
  induction st with
  | nil => simp [lookupA]
  | cons p t ih =>
    simp only [lookupA, List.map_cons, List.mem_cons]
    by_cases hp : p.1 = k
    · rw [if_pos hp]
      exact ⟨fun _ => Or.inl hp.symm, fun _ => rfl⟩
    · rw [if_neg hp, ih]
      exact ⟨Or.inr, fun h => h.elim (fun he => absurd he.symm hp) id⟩

theorem lookupA_update_ne (st : List (Str × β)) (k : Str) (v : β) (g : Str) (h : g ≠ k) :
    lookupA g (st.map fun p => if p.1 = k then (k, v) else p) = lookupA g st := by
  induction st with
  | nil => rfl
  | cons p t ih =>
    rw [List.map_cons]
    by_cases hp : p.1 = k <;> simp [lookupA, hp, Ne.symm h, ih]

theorem lookupA_update_self (st : List (Str × β)) (k : Str) (v : β)
    (h : (lookupA k st).isSome) :
    lookupA k (st.map fun p => if p.1 = k then (k, v) else p) = some v := by
  induction st with
  | nil => simp [lookupA] at h
  | cons p t ih =>
    rw [List.map_cons]
    by_cases hp : p.1 = k
    · simp [lookupA, hp]
    · rw [lookupA, if_neg hp] at h
      simp [lookupA, hp, ih h]

theorem lookupA_storeInsert (st : List (Str × β)) (k : Str) (v : β) (g : Str) :
    lookupA g (storeInsert st k v) = if g = k then some v else lookupA g st := by
  rw [storeInsert]
  by_cases hk : (lookupA k st).isSome
  · rw [if_pos hk]
    by_cases hg : g = k
    · subst hg
      rw [if_pos rfl, lookupA_update_self st g v hk]
    · rw [if_neg hg, lookupA_update_ne st k v g hg]
  · rw [if_neg hk, lookupA_append]
    by_cases hg : g = k
    · subst hg
      rw [Option.not_isSome_iff_eq_none.mp hk, if_pos rfl]
      simp [lookupA, oOr]
    · rw [if_neg hg]
      have h2 : lookupA g [(k, v)] = none := by simp [lookupA, Ne.symm hg]
      rw [h2]
      cases lookupA g st <;> rfl

theorem map_fst_storeInsert (st : List (Str × β)) (k : Str) (v : β) :
    (storeInsert st k v).map Prod.fst
      = if (lookupA k st).isSome then st.map Prod.fst else st.map Prod.fst ++ [k] := by
  rw [storeInsert]
  by_cases hk : (lookupA k st).isSome
  · rw [if_pos hk, if_pos hk, List.map_map]
    apply List.map_congr_left
    intro p _
    by_cases hp : p.1 = k <;> simp [hp, Function.comp]
  · rw [if_neg hk, if_neg hk, List.map_append]
    rfl

theorem length_storeInsert (st : List (Str × β)) (k : Str) (v : β) :
    (storeInsert st k v).length
      = if (lookupA k st).isSome then st.length else st.length + 1 := by
  rw [storeInsert]
  by_cases hk : (lookupA k st).isSome <;> simp [hk]

theorem nodup_keys_storeInsert (st : List (Str × β)) (k : Str) (v : β)
    (h : (st.map Prod.fst).Nodup) : ((storeInsert st k v).map Prod.fst).Nodup := by
  rw [map_fst_storeInsert]
  by_cases hk : (lookupA k st).isSome
  · simpa [hk] using h
  · rw [if_neg hk]
    have hkn : k ∉ st.map Prod.fst := fun hmem => hk ((lookupA_isSome_iff k st).mpr hmem)
    exact h.append (List.nodup_singleton k)
      (fun a ha hb => by rw [List.mem_singleton.mp hb] at ha; exact hkn ha)

theorem keys_subset_storeInsert (st : List (Str × β)) (k : Str) (v : β) (gs : Finset Str)
    (hs : ∀ a ∈ st.map Prod.fst, a ∈ gs) (hk : k ∈ gs) :
    ∀ a ∈ (storeInsert st k v).map Prod.fst, a ∈ gs := by
  rw [map_fst_storeInsert]
  by_cases h : (lookupA k st).isSome
  · rw [if_pos h]
    exact hs
  · rw [if_neg h]
    intro a ha
    rcases List.mem_append.mp ha with h1 | h2
    · exact hs a h1
    · rw [List.mem_singleton.mp h2]
      exact hk

theorem length_le_card_of_keys (st : List (Str × β)) (gs : Finset Str)
    (hnd : (st.map Prod.fst).Nodup) (hsub : ∀ a ∈ st.map Prod.fst, a ∈ gs) :
    st.length ≤ gs.card := by
  have h1 : st.length = (st.map Prod.fst).length := (List.length_map st Prod.fst).symm
  rw [h1, ← List.toFinset_card_of_nodup hnd]
  exact Finset.card_le_card fun a ha => hsub a (List.mem_toFinset.mp ha)

/-! ## Matrix reader: equations and invariants -/

theorem read_aux_nil (gs : Finset Str) (d : Char) (st : List (Str × Row)) :
    read_matrix_aux gs d [] st = (st, 0) := rfl

theorem read_aux_cons_break (gs : Finset Str) (d : Char) (line : Str) (rest : List Str)
    (st : List (Str × Row)) (hm : (parseRow d line).1 ∈ gs)
    (hl : (storeInsert st (parseRow d line).1 (parseRow d line).2).length = gs.card) :
    read_matrix_aux gs d (line :: rest) st
      = (storeInsert st (parseRow d line).1 (parseRow d line).2, 1) := by
  simp only [read_matrix_aux]
  rw [if_pos hm, if_pos hl]

theorem read_aux_cons_cont (gs : Finset Str) (d : Char) (line : Str) (rest : List Str)
    (st : List (Str × Row)) (hm : (parseRow d line).1 ∈ gs)
    (hl : ¬ (storeInsert st (parseRow d line).1 (parseRow d line).2).length = gs.card) :
    read_matrix_aux gs d (line :: rest) st
      = ((read_matrix_aux gs d rest (storeInsert st (parseRow d line).1 (parseRow d line).2)).1,
         (read_matrix_aux gs d rest (storeInsert st (parseRow d line).1 (parseRow d line).2)).2
           + 1) := by
  simp only [read_matrix_aux]
  rw [if_pos hm, if_neg hl]

theorem read_aux_cons_skip (gs : Finset Str) (d : Char) (line : Str) (rest : List Str)
    (st : List (Str × Row)) (hm : ¬ (parseRow d line).1 ∈ gs) :
    read_matrix_aux gs d (line :: rest) st
      = ((read_matrix_aux gs d rest st).1, (read_matrix_aux gs d rest st).2 + 1) := by
  simp only [read_matrix_aux]
  rw [if_neg hm]

theorem read_aux_invariant (gs : Finset Str) (d : Char) (lines : List Str) :
    ∀ st : List (Str × Row),
      ((st.map Prod.fst).Nodup ∧ ∀ a ∈ st.map Prod.fst, a ∈ gs) →
      (((read_matrix_aux gs d lines st).1.map Prod.fst).Nodup
        ∧ ∀ a ∈ (read_matrix_aux gs d lines st).1.map Prod.fst, a ∈ gs) := by
  induction lines with
  | nil => intro st h; exact h
  | cons line rest ih =>
    intro st h
    by_cases hm : (parseRow d line).1 ∈ gs
    · by_cases hl :
          (storeInsert st (parseRow d line).1 (parseRow d line).2).length = gs.card
      · rw [read_aux_cons_break gs d line rest st hm hl]
        exact ⟨nodup_keys_storeInsert st _ _ h.1,
          keys_subset_storeInsert st _ _ gs h.2 hm⟩
      · rw [read_aux_cons_cont gs d line rest st hm hl]
        exact ih _ ⟨nodup_keys_storeInsert st _ _ h.1,
          keys_subset_storeInsert st _ _ gs h.2 hm⟩
    · rw [read_aux_cons_skip gs d line rest st hm]
      exact ih st h

theorem read_aux_length_le (gs : Finset Str) (d : Char) (lines : List Str) :
    (expression_data gs d lines).length ≤ gs.card := by
  have h := read_aux_invariant gs d lines [] ⟨List.nodup_nil, by simp⟩
  exact length_le_card_of_keys _ gs h.1 h.2

theorem read_aux_empty_gs (d : Char) (lines : List Str) :
    ∀ st, read_matrix_aux (∅ : Finset Str) d lines st = (st, lines.length) := by
  induction lines with
  | nil => intro st; rfl
  | cons line rest ih =>
    intro st
    rw [read_aux_cons_skip (∅ : Finset Str) d line rest st (by simp), ih st, List.length_cons]

theorem read_aux_append_of_full (gs : Finset Str) (d : Char) (lines : List Str) :
    ∀ (extra : List Str) (st : List (Str × Row)), st.length < gs.card →
      (read_matrix_aux gs d lines st).1.length = gs.card →
      read_matrix_aux gs d (lines ++ extra) st = read_matrix_aux gs d lines st := by
  induction lines with
  | nil =>
    intro extra st h hfull
    rw [read_aux_nil] at hfull
    exact absurd hfull (Nat.ne_of_lt h)
  | cons line rest ih =>
    intro extra st h hfull
    by_cases hm : (parseRow d line).1 ∈ gs
    · by_cases hl :
          (storeInsert st (parseRow d line).1 (parseRow d line).2).length = gs.card
      · rw [List.cons_append, read_aux_cons_break gs d line (rest ++ extra) st hm hl,
          read_aux_cons_break gs d line rest st hm hl]
      · rw [read_aux_cons_cont gs d line rest st hm hl] at hfull
        have h2 : (storeInsert st (parseRow d line).1 (parseRow d line).2).length < gs.card := by
          have hle : (storeInsert st (parseRow d line).1 (parseRow d line).2).length
              ≤ st.length + 1 := by
            rw [length_storeInsert]
            by_cases hk : (lookupA (parseRow d line).1 st).isSome <;> simp [hk]
          exact Nat.lt_of_le_of_ne (Nat.le_trans hle (Nat.succ_le_of_lt h)) hl
        rw [List.cons_append, read_aux_cons_cont gs d line (rest ++ extra) st hm hl,
          read_aux_cons_cont gs d line rest st hm hl, ih extra _ h2 hfull]
    · rw [read_aux_cons_skip gs d line rest st hm] at hfull
      rw [List.cons_append, read_aux_cons_skip gs d line (rest ++ extra) st hm,
        read_aux_cons_skip gs d line rest st hm, ih extra st h hfull]

theorem read_aux_stop_full (gs : Finset Str) (d : Char) (lines : List Str) :
    ∀ st, (read_matrix_aux gs d lines st).2 < lines.length →
      (read_matrix_aux gs d lines st).1.length = gs.card := by
  induction lines with
  | nil => intro st h; simp [read_aux_nil] at h
  | cons line rest ih =>
    intro st h
    by_cases hm : (parseRow d line).1 ∈ gs
    · by_cases hl :
          (storeInsert st (parseRow d line).1 (parseRow d line).2).length = gs.card
      · rw [read_aux_cons_break gs d line rest st hm hl]
        exact hl
      · rw [read_aux_cons_cont gs d line rest st hm hl] at h ⊢
        rw [List.length_cons] at h
        exact ih _ (Nat.lt_of_succ_lt_succ h)
    · rw [read_aux_cons_skip gs d line rest st hm] at h ⊢
      rw [List.length_cons] at h
      exact ih st (Nat.lt_of_succ_lt_succ h)

theorem read_aux_prefix_not_full (gs : Finset Str) (d : Char) (lines : List Str) :
    ∀ (k : ℕ) (st : List (Str × Row)), st.length < gs.card →
      k < (read_matrix_aux gs d lines st).2 →
      (read_matrix_aux gs d (lines.take k) st).1.length < gs.card := by
  induction lines with
  | nil => intro k st h hk; simp [read_aux_nil] at hk
  | cons line rest ih =>
    intro k st h hk
    cases k with
    | zero => simpa [read_aux_nil] using h
    | succ k =>
      by_cases hm : (parseRow d line).1 ∈ gs
      · by_cases hl :
            (storeInsert st (parseRow d line).1 (parseRow d line).2).length = gs.card
        · rw [read_aux_cons_break gs d line rest st hm hl] at hk
          exact absurd hk (by simp)
        · rw [read_aux_cons_cont gs d line rest st hm hl] at hk
          have h2 : (storeInsert st (parseRow d line).1 (parseRow d line).2).length
              < gs.card := by
            have hle : (storeInsert st (parseRow d line).1 (parseRow d line).2).length
                ≤ st.length + 1 := by
              rw [length_storeInsert]
              by_cases hc : (lookupA (parseRow d line).1 st).isSome <;> simp [hc]
            exact Nat.lt_of_le_of_ne (Nat.le_trans hle (Nat.succ_le_of_lt h)) hl
          rw [List.take_succ_cons, read_aux_cons_cont gs d line (rest.take k) st hm hl]
          exact ih k _ h2 (Nat.lt_of_succ_lt_succ hk)
      · rw [read_aux_cons_skip gs d line rest st hm] at hk
        rw [List.take_succ_cons, read_aux_cons_skip gs d line (rest.take k) st hm]
        exact ih k st h (Nat.lt_of_succ_lt_succ hk)

/-! ## C2: retained-row bound and early termination -/

/-- C2 counterexample: with an *empty* gene set the number of retained
rows (zero) equals the gene-set size already after zero data lines — in
particular at the first data line — yet the reader consumes both lines of
the input instead of stopping there, refuting "reading stops at the first
data line where the number of retained rows equals the gene-set size". -/
theorem c2_counterexample :
    lines_consumed (∅ : Finset Str) '\t' ["a".toList, "b".toList] = 2
    ∧ (expression_data (∅ : Finset Str) '\t' (["a".toList, "b".toList].take 0)).length
        = (∅ : Finset Str).card := by
  constructor
  · rw [lines_consumed, read_aux_empty_gs '\t' ["a".toList, "b".toList] []]
    rfl
  · rfl

/-- C2 (amended): for every matrix input, the number of retained rows is
at most the gene-set size; once the store is full, appending further lines
(including garbage) does not change the stored rows; if the reader stopped
before the end of input then the store is full at the stopping line; and,
for a nonempty gene set, every proper prefix of the consumed lines leaves
the store strictly below the gene-set size — so reading stops exactly at
the line whose retained row first makes the count equal the gene-set
size.  (With an empty gene set the count equals the size from the start,
every line is read, and none is retained.) -/
theorem c2_read_termination (gs : Finset Str) (d : Char) (lines extra : List Str) :
    (expression_data gs d lines).length ≤ gs.card
    ∧ ((expression_data gs d lines).length = gs.card →
        expression_data gs d (lines ++ extra) = expression_data gs d lines)
    ∧ (lines_consumed gs d lines < lines.length →
        (expression_data gs d lines).length = gs.card)
    ∧ (∀ k, k < lines_consumed gs d lines → 0 < gs.card →
        (expression_data gs d (lines.take k)).length < gs.card) := by
  refine ⟨read_aux_length_le gs d lines, ?_, ?_, ?_⟩
  · intro hfull
    by_cases hc : gs.card = 0
    · rw [Finset.card_eq_zero.mp hc]
      rw [expression_data, expression_data, read_aux_empty_gs, read_aux_empty_gs]
    · have h0 : ([] : List (Str × Row)).length < gs.card := Nat.pos_of_ne_zero hc
      rw [expression_data, expression_data,
        read_aux_append_of_full gs d lines extra [] h0 hfull]
  · intro h
    exact read_aux_stop_full gs d lines [] h
  · intro k hk hpos
    exact read_aux_prefix_not_full gs d lines k [] hpos hk

/-- Witness for C2's amended theorem at a concrete input: one gene, a
matching first line, and a trailing garbage line that is never read. -/
theorem c2_read_termination_witness :
    expression_data {"G".toList} '\t' (["G\t1".toList] ++ ["garbage".toList])
      = expression_data {"G".toList} '\t' ["G\t1".toList] :=
  (c2_read_termination {"G".toList} '\t' ["G\t1".toList] ["garbage".toList]).2.1
    (by with_unfolding_all rfl)

/-! ## C1: duplicate gene rows -/

theorem lookupA_foldl_storeInsert (entries : List (Str × β)) (k : Str) :
    ∀ st, lookupA k (entries.foldl (fun s p => storeInsert s p.1 p.2) st)
      = oOr (lastValue k entries) (lookupA k st) := by
  induction entries with
  | nil => intro st; rfl
  | cons p t ih =>
    intro st
    rw [List.foldl_cons, ih, lastValue, lookupA_storeInsert]
    cases hlv : lastValue k t with
    | some x => rfl
    | none =>
      by_cases hp : p.1 = k
      · simp [oOr, hp]
      · simp [oOr, hp, Ne.symm hp]

theorem read_aux_store_eq (gs : Finset Str) (d : Char) (lines : List Str) :
    ∀ st, (read_matrix_aux gs d lines st).1 =
      (((lines.take (read_matrix_aux gs d lines st).2).map (parseRow d)).filter
        fun p => decide (p.1 ∈ gs)).foldl (fun s p => storeInsert s p.1 p.2) st := by
  induction lines with
  | nil => intro st; rfl
  | cons line rest ih =>
    intro st
    by_cases hm : (parseRow d line).1 ∈ gs
    · by_cases hl :
          (storeInsert st (parseRow d line).1 (parseRow d line).2).length = gs.card
      · rw [read_aux_cons_break gs d line rest st hm hl]
        simp [hm]
      · rw [read_aux_cons_cont gs d line rest st hm hl, List.take_succ_cons,
          List.map_cons, List.filter_cons]
        rw [if_pos (decide_eq_true hm), List.foldl_cons]
        exact ih _
    · rw [read_aux_cons_skip gs d line rest st hm, List.take_succ_cons,
        List.map_cons, List.filter_cons]
      rw [if_neg (by simpa using hm)]
      exact ih st

theorem lastValue_filter_mem (gs : Finset Str) (g : Str) (entries : List (Str × Row)) :
    lastValue g (entries.filter fun p => decide (p.1 ∈ gs))
      = if g ∈ gs then lastValue g entries else none := by
  induction entries with
  | nil => simp [lastValue]
  | cons p t ih =>
    rw [List.filter_cons]
    by_cases hm : p.1 ∈ gs
    · rw [if_pos (decide_eq_true hm)]
      simp only [lastValue, ih]
      by_cases hg : g ∈ gs
      · simp [hg]
      · have hne : p.1 ≠ g := fun he => hg (he ▸ hm)
        simp [hg, oOr, hne]
    · rw [if_neg (by simpa using hm), ih]
      by_cases hg : g ∈ gs
      · have hne : p.1 ≠ g := fun he => hm (he ▸ hg)
        rw [if_pos hg, if_pos hg, lastValue, if_neg hne]
        cases lastValue g t <;> rfl
      · rw [if_neg hg, if_neg hg]

/-- C1 (amended): the stored expression row of a gene is the one from the
*last* matching data line among the lines the reader consumed (so a
duplicate row is only ignored when early termination stopped reading
before it); genes outside the requested set are never stored. -/
theorem c1_last_match_wins (gs : Finset Str) (d : Char) (lines : List Str) (g : Str) :
    lookupA g (expression_data gs d lines) =
      if g ∈ gs then
        lastValue g ((lines.take (lines_consumed gs d lines)).map (parseRow d))
      else none := by
  rw [expression_data, read_aux_store_eq gs d lines [], lookupA_foldl_storeInsert]
  rw [lastValue_filter_mem gs g]
  by_cases hg : g ∈ gs
  · rw [if_pos hg, if_pos hg, lines_consumed]
    cases lastValue g ((lines.take (read_matrix_aux gs d lines []).2).map (parseRow d)) <;> rfl
  · rw [if_neg hg, if_neg hg]
    rfl

/-- C1 counterexample: with requested genes `{G1, G2}` and data lines
`G1 -> 1`, `G1 -> 2`, `G2 -> 3`, the first matching row for `G1` carries
value `1`, but the store ends up holding value `2` from the *later*
duplicate row — the first matching row does not win and the later
duplicate is not ignored. -/
theorem c1_counterexample :
    parseRow '\t' "G1\t1".toList = ("G1".toList, [some (PyFloat.finite 1)])
    ∧ lookupA "G1".toList
        (expression_data {"G1".toList, "G2".toList} '\t'
          ["G1\t1".toList, "G1\t2".toList, "G2\t3".toList])
        = some [some (PyFloat.finite 2)]
    ∧ (some [some (PyFloat.finite 2)] : Option Row) ≠ some [some (PyFloat.finite 1)] := by
  refine ⟨by with_unfolding_all rfl, by with_unfolding_all rfl, ?_⟩
  intro h
  have h2 : (2 : ℚ) = 1 := by
    have h3 := Option.some.inj h
    have h4 := List.head_eq_of_cons_eq h3
    have h5 := Option.some.inj h4
    exact PyFloat.finite.inj h5
  norm_num at h2

/-! ## C6: group assignment is a partition -/

theorem mem_firstSeen (s : Str) (l : List Str) : s ∈ firstSeen l ↔ s ∈ l := by
  induction l with
  | nil => simp [firstSeen]
  | cons a t ih =>
    simp only [firstSeen, List.mem_cons]
    by_cases hs : s = a
    · simp [hs]
    · simp [hs, List.mem_filter, ih]

theorem nodup_firstSeen (l : List Str) : (firstSeen l).Nodup := by
  induction l with
  | nil => exact List.nodup_nil
  | cons a t ih =>
    rw [firstSeen]
    refine List.Nodup.cons ?_ (ih.filter _)
    intro hmem
    have h := (List.mem_filter.mp hmem).2
    simp at h

theorem firstSeen_append (prev : List Str) (s : Str) :
    firstSeen (prev ++ [s])
      = if s ∈ prev then firstSeen prev else firstSeen prev ++ [s] := by
  induction prev with
  | nil => simp [firstSeen]
  | cons a t ih =>
    rw [List.cons_append, firstSeen, ih, firstSeen]
    by_cases hs : s = a
    · subst hs
      by_cases ht : s ∈ t
      · rw [if_pos ht, if_pos (by simp [ht])]
      · rw [if_neg ht, if_pos (by simp), List.filter_append]
        simp
    · by_cases ht : s ∈ t
      · rw [if_pos ht, if_pos (by simp [ht])]
      · rw [if_neg ht, if_neg (by simp [hs, ht]), List.filter_append]
        simp [hs]

theorem nthO_append_left (l1 l2 : List α) (i : ℕ) (h : i < l1.length) :
    nthO (l1 ++ l2) i = nthO l1 i := by
  induction l1 generalizing i with
  | nil => simp at h
  | cons a t ih =>
    cases i with
    | zero => rfl
    | succ n => exact ih n (Nat.lt_of_succ_lt_succ h)

theorem nthO_append_length (l : List α) (a : α) : nthO (l ++ [a]) l.length = some a := by
  induction l with
  | nil => rfl
  | cons b t ih => simpa [List.cons_append, nthO] using ih

theorem nthO_mem (l : List α) (i : ℕ) (a : α) (h : nthO l i = some a) : a ∈ l := by
  induction l generalizing i with
  | nil => simp [nthO] at h
  | cons b t ih =>
    cases i with
    | zero =>
      simp only [nthO, Option.some.injEq] at h
      simp [h]
    | succ n => exact List.mem_cons_of_mem b (ih n h)

theorem nthO_lt_isSome (l : List α) (i : ℕ) (h : i < l.length) : ∃ x, nthO l i = some x := by
  induction l generalizing i with
  | nil => simp at h
  | cons a t ih =>
    cases i with
    | zero => exact ⟨a, rfl⟩
    | succ n => exact ih n (Nat.lt_of_succ_lt_succ h)

theorem idxsOf_append (samples : List Str) (s x : Str) :
    idxsOf x (samples ++ [s])
      = idxsOf x samples ++ (if s = x then [samples.length] else []) := by
  rw [idxsOf, idxsOf, List.length_append, List.length_singleton, List.range_succ,
    List.filter_append]
  congr 1
  · apply List.filter_congr
    intro i hi
    have hlt : i < samples.length := List.mem_range.mp hi
    rw [nthO_append_left samples [s] i hlt]
  · simp only [List.filter_cons, List.filter_nil, nthO_append_length samples s]
    by_cases h : s = x <;> simp [h]

theorem idxsOf_nil_of_not_mem (samples : List Str) (s : Str) (h : s ∉ samples) :
    idxsOf s samples = [] := by
  rw [idxsOf, List.filter_eq_nil_iff]
  intro i hi
  obtain ⟨x, hx⟩ := nthO_lt_isSome samples i (List.mem_range.mp hi)
  have hxm : x ∈ samples := nthO_mem samples i x hx
  have hne : x ≠ s := fun he => h (he ▸ hxm)
  simp [hx, hne]

theorem addSample_step (prev : List Str) (s : Str) :
    addSample ((firstSeen prev).map (fun x => (x, idxsOf x prev)), firstSeen prev)
        prev.length s
      = ((firstSeen (prev ++ [s])).map (fun x => (x, idxsOf x (prev ++ [s]))),
         firstSeen (prev ++ [s])) := by
  rw [addSample]
  have hcond : (lookupA s ((firstSeen prev).map fun x => (x, idxsOf x prev))).isSome
      ↔ s ∈ prev := by
    rw [lookupA_isSome_iff, List.map_map]
    have he : (Prod.fst ∘ fun x => (x, idxsOf x prev)) = id := rfl
    rw [he, List.map_id, mem_firstSeen]
  by_cases hs : s ∈ prev
  · rw [if_pos (hcond.mpr hs), firstSeen_append prev s, if_pos hs]
    have h2 : ((firstSeen prev).map (fun x => (x, idxsOf x prev))).map
          (fun p => if p.1 = s then (p.1, p.2 ++ [prev.length]) else p)
        = (firstSeen prev).map (fun x => (x, idxsOf x (prev ++ [s]))) := by
      rw [List.map_map]
      apply List.map_congr_left
      intro x _
      by_cases hxs : x = s
      · subst hxs
        simp only [Function.comp_apply]
        rw [if_pos trivial, idxsOf_append, if_pos rfl]
      · simp only [Function.comp_apply, if_neg hxs]
        rw [idxsOf_append, if_neg (fun he => hxs he.symm), List.append_nil]
    rw [h2]
  · rw [if_neg (fun hson => hs (hcond.mp hson)), firstSeen_append prev s, if_neg hs]
    have h2 : (firstSeen prev ++ [s]).map (fun x => (x, idxsOf x (prev ++ [s])))
        = (firstSeen prev).map (fun x => (x, idxsOf x prev)) ++ [(s, [prev.length])] := by
      rw [List.map_append]
      congr 1
      · apply List.map_congr_left
        intro x hx
        have hxp : x ∈ prev := (mem_firstSeen x prev).mp hx
        have hne : s ≠ x := fun he => hs (he ▸ hxp)
        rw [idxsOf_append, if_neg hne, List.append_nil]
      · rw [List.map_singleton, idxsOf_append, if_pos rfl,
          idxsOf_nil_of_not_mem prev s hs, List.nil_append]
    rw [h2]

theorem group_assign_aux_invariant (rest : List Str) :
    ∀ prev : List Str,
      group_assign_aux prev.length rest
          ((firstSeen prev).map (fun x => (x, idxsOf x prev)), firstSeen prev)
        = ((firstSeen (prev ++ rest)).map (fun x => (x, idxsOf x (prev ++ rest))),
           firstSeen (prev ++ rest)) := by
  induction rest with
  | nil => intro prev; simp [group_assign_aux]
  | cons s rest2 ih =>
    intro prev
    rw [group_assign_aux, addSample_step prev s]
    have hlen : prev.length + 1 = (prev ++ [s]).length := by simp
    rw [hlen, ih (prev ++ [s])]
    simp [List.append_assoc]

theorem group_assign_eq (samples : List Str) :
    group_assign samples
      = ((firstSeen samples).map (fun x => (x, idxsOf x samples)), firstSeen samples) := by
  have h := group_assign_aux_invariant samples []
  simpa [group_assign, firstSeen, idxsOf] using h

theorem sum_map_add_nat {α : Type} (l : List α) (f g : α → ℕ) :
    (l.map fun x => f x + g x).sum = (l.map f).sum + (l.map g).sum := by
  induction l with
  | nil => rfl
  | cons a t ih =>
    simp only [List.map_cons, List.sum_cons, ih]
    omega

theorem sum_map_indicator (l : List Str) (c : Str) (hnd : l.Nodup) (hc : c ∈ l) :
    (l.map fun s => if c = s then 1 else 0).sum = 1 := by
  induction l with
  | nil => simp at hc
  | cons a t ih =>
    rw [List.map_cons, List.sum_cons]
    by_cases h : c = a
    · subst h
      rw [if_pos rfl]
      have hz : ∀ s ∈ t, (if c = s then 1 else 0) = 0 := fun s hs =>
        if_neg fun he => (List.nodup_cons.mp hnd).1 (by rw [he]; exact hs)
      have he : t.map (fun s => if c = s then 1 else 0) = t.map fun _ => 0 :=
        List.map_congr_left hz
      rw [he]
      simp
    · rw [if_neg h]
      have := ih (List.nodup_cons.mp hnd).2 ((List.mem_cons.mp hc).resolve_left h)
      omega

theorem sum_filter_lengths {α : Type} (key : α → Str) (A : List α) (l : List Str)
    (hnd : l.Nodup) (hmem : ∀ a ∈ A, key a ∈ l) :
    (l.map fun s => (A.filter fun b => decide (key b = s)).length).sum = A.length := by
  induction A with
  | nil =>
    have he : l.map (fun s => (([] : List α).filter fun b => decide (key b = s)).length)
        = l.map fun _ => 0 := List.map_congr_left fun s _ => rfl
    rw [he]
    simp
  | cons a t ih =>
    have hmem2 : ∀ b ∈ t, key b ∈ l := fun b hb => hmem b (List.mem_cons_of_mem a hb)
    have hma : key a ∈ l := hmem a (List.mem_cons_self a t)
    have hstep : ∀ s ∈ l, ((a :: t).filter fun b => decide (key b = s)).length
        = (if key a = s then 1 else 0) + (t.filter fun b => decide (key b = s)).length := by
      intro s _
      rw [List.filter_cons]
      by_cases h : key a = s
      · simp [h, Nat.add_comm]
      · simp [h]
    have he : l.map (fun s => ((a :: t).filter fun b => decide (key b = s)).length)
        = l.map fun s =>
            (if key a = s then 1 else 0) + (t.filter fun b => decide (key b = s)).length :=
      List.map_congr_left hstep
    rw [he, sum_map_add_nat, sum_map_indicator l (key a) hnd hma, ih hmem2]
    simp [Nat.add_comm]

theorem countP_eq_one_of_nodup (l : List Str) (c : Str) (hnd : l.Nodup) (hc : c ∈ l) :
    (l.countP fun s => decide (s = c)) = 1 := by
  induction l with
  | nil => simp at hc
  | cons a t ih =>
    rw [List.countP_cons]
    by_cases h : a = c
    · subst h
      have hz : (t.countP fun s => decide (s = a)) = 0 := by
        rw [List.countP_eq_zero]
        intro s hs
        simp only [decide_eq_true_eq]
        exact fun he => (List.nodup_cons.mp hnd).1 (he ▸ hs)
      simp [hz]
    · have hct : c ∈ t := (List.mem_cons.mp hc).resolve_left fun he => h he.symm
      simp [h, ih (List.nodup_cons.mp hnd).2 hct]

/-- C6: for every matrix header, the group assignment partitions the
sample column indices: each index `0..len(MatrixHeader)-2` lies in exactly
one group's (duplicate-free) index list, the group sizes sum to
`len(MatrixHeader)-1`, the group order is the sequence of distinct labels
in first-seen order (duplicate-free, containing exactly the sample
labels), and every group's index list is strictly increasing (column
order). -/
theorem c6_group_partition (cols : List Str) :
    (∀ i, i < (cols.drop 1).length →
      ((group_assign (cols.drop 1)).1.countP fun p => decide (i ∈ p.2)) = 1)
    ∧ ((group_assign (cols.drop 1)).1.map fun p => p.2.length).sum = cols.length - 1
    ∧ (group_assign (cols.drop 1)).2 = firstSeen (cols.drop 1)
    ∧ (group_assign (cols.drop 1)).2.Nodup
    ∧ (∀ s, s ∈ (group_assign (cols.drop 1)).2 ↔ s ∈ cols.drop 1)
    ∧ (∀ p, p ∈ (group_assign (cols.drop 1)).1 →
        p.2.Pairwise (· < ·) ∧ p.2.Nodup) := by
  rw [group_assign_eq (cols.drop 1)]
  refine ⟨?_, ?_, rfl, nodup_firstSeen _, fun s => mem_firstSeen s _, ?_⟩
  · intro i hi
    obtain ⟨c, hc⟩ := nthO_lt_isSome (cols.drop 1) i hi
    rw [List.countP_map]
    have hcong : ∀ x ∈ firstSeen (cols.drop 1),
        (((fun p : Str × List ℕ => decide (i ∈ p.2)) ∘
            fun x => (x, idxsOf x (cols.drop 1))) x = true
          ↔ decide (x = c) = true) := by
      intro x _
      simp only [Function.comp_apply, decide_eq_true_eq]
      constructor
      · intro hmem
        rw [idxsOf, List.mem_filter] at hmem
        have h2 := hmem.2
        rw [hc] at h2
        simp only [Option.getD_some, decide_eq_true_eq] at h2
        exact h2.symm
      · rintro rfl
        rw [idxsOf, List.mem_filter]
        refine ⟨List.mem_range.mpr hi, ?_⟩
        rw [hc]
        simp
    rw [List.countP_congr hcong]
    exact countP_eq_one_of_nodup (firstSeen (cols.drop 1)) c (nodup_firstSeen _)
      ((mem_firstSeen c (cols.drop 1)).mpr (nthO_mem _ i c hc))
  · rw [List.map_map]
    have he : ((fun p : Str × List ℕ => p.2.length) ∘ fun x => (x, idxsOf x (cols.drop 1)))
        = fun x => (idxsOf x (cols.drop 1)).length := rfl
    rw [he]
    have hlen : cols.length - 1 = (cols.drop 1).length := by
      rw [List.length_drop]
    rw [hlen]
    have hsum := sum_filter_lengths (fun i : ℕ => (nthO (cols.drop 1) i).getD [])
      (List.range (cols.drop 1).length) (firstSeen (cols.drop 1)) (nodup_firstSeen _) ?_
    · rw [← List.length_range (cols.drop 1).length]
      rw [← hsum]
      apply congrArg
      apply List.map_congr_left
      intro s _
      rfl
    · intro i hi
      obtain ⟨c, hc⟩ := nthO_lt_isSome (cols.drop 1) i (List.mem_range.mp hi)
      show (nthO (cols.drop 1) i).getD [] ∈ firstSeen (cols.drop 1)
      rw [hc]
      simpa using (mem_firstSeen c (cols.drop 1)).mpr (nthO_mem _ i c hc)
  · intro p hp
    obtain ⟨x, hx, he⟩ := List.mem_map.mp hp
    have hpw : (idxsOf x (cols.drop 1)).Pairwise (· < ·) :=
      (List.pairwise_lt_range _).sublist (List.filter_sublist _)
    rw [← he]
    exact ⟨hpw, hpw.imp fun hab => Nat.ne_of_lt hab⟩

/-- Witness for C6 at the header `Gene, A, B, A`: sample index `0`
(label `A`) lies in exactly one group. -/
theorem c6_group_partition_witness :
    ((group_assign ["A".toList, "B".toList, "A".toList]).1.countP
      fun p => decide (0 ∈ p.2)) = 1 :=
  (c6_group_partition ["Gene".toList, "A".toList, "B".toList, "A".toList]).1 0 (by decide)

/-! ## C8: annotation join -/

theorem gene_col_aux_eq (l : List Str) :
    ∀ k, gene_col_aux k l = ((firstMatchIdx l).map (· + k)).getD 0 := by
  induction l with
  | nil => intro k; rfl
  | cons h t ih =>
    intro k
    rw [gene_col_aux, firstMatchIdx]
    by_cases hh : isGeneIdHeader h
    · rw [if_pos hh, if_pos hh]
      simp
    · rw [if_neg hh, if_neg hh, ih (k + 1)]
      cases firstMatchIdx t with
      | none => rfl
      | some n => simp [Nat.add_comm, Nat.add_assoc, Nat.add_left_comm]

theorem annot_fold_eq (gc : ℕ) (rows : List Str) :
    ∀ st, rows.foldl
        (fun st line =>
          match annot_row_entry gc line with
          | some kv => storeInsert st kv.1 kv.2
          | none => st) st
      = (rows.filterMap (annot_row_entry gc)).foldl (fun s p => storeInsert s p.1 p.2) st := by
  induction rows with
  | nil => intro st; rfl
  | cons line t ih =>
    intro st
    rw [List.foldl_cons, List.filterMap_cons]
    cases h : annot_row_entry gc line with
    | none =>
      simp only [h]
      exact ih st
    | some kv =>
      simp only [h, List.foldl_cons]
      exact ih (storeInsert st kv.1 kv.2)

/-- C8: the annotation gene-id column is the index of the first header
field (left-to-right) whose label case-insensitively contains both
`gene` and `id`, defaulting to `0` when none does; a data row with at most
`GeneIdColumn` fields yields no entry; and the final annotation index maps
each identifier to the fields of the *last* data row carrying it (later
occurrences overwrite earlier ones). -/
theorem c8_annotation_join (headers : List Str) (gc : ℕ) (rows : List Str) (k : Str) :
    gene_col_of headers = (firstMatchIdx headers).getD 0
    ∧ (∀ line : Str,
        (splitOnChar (detect_delimiter line) (pyStrip line)).length ≤ gc →
        annot_row_entry gc line = none)
    ∧ lookupA k (annot_data_of gc rows)
        = lastValue k (rows.filterMap (annot_row_entry gc)) := by
  refine ⟨?_, ?_, ?_⟩
  · rw [gene_col_of, gene_col_aux_eq headers 0]
    cases firstMatchIdx headers <;> simp
  · intro line h
    rw [annot_row_entry, if_neg (Nat.not_lt.mpr h)]
  · rw [annot_data_of, annot_fold_eq gc rows [], lookupA_foldl_storeInsert]
    cases lastValue k (rows.filterMap (annot_row_entry gc)) <;> rfl

/-- Witness for C8 on the specification's example: header
`GeneID, Name, Type` gives column `0`, and the row for `G1` is indexed
under `G1`. -/
theorem c8_annotation_join_witness :
    annot_row_entry 1 "x".toList = none
    ∧ lookupA "G1".toList (annot_data_of 0 ["G1,Kinase,enzyme".toList])
        = lastValue "G1".toList
            (["G1,Kinase,enzyme".toList].filterMap (annot_row_entry 0)) := by
  constructor
  · exact (c8_annotation_join [] 1 [] []).2.1 "x".toList (by decide)
  · exact (c8_annotation_join ["GeneID".toList] 0 ["G1,Kinase,enzyme".toList]
      "G1".toList).2.2

/-! ## C10: zero sample columns make the aggregation step raise -/

theorem firstSeen_eq_nil_iff (l : List Str) : firstSeen l = [] ↔ l = [] := by
  cases l <;> simp [firstSeen]

theorem group_assign_dict_nil_iff (samples : List Str) :
    (group_assign samples).1 = [] ↔ samples = [] := by
  rw [group_assign_eq]
  simp [List.map_eq_nil_iff, firstSeen_eq_nil_iff]

/-- C10: if the matrix header yields zero sample columns (only the
gene-id column), the aggregation stage computes `max()` over an empty
collection of group sizes and the run raises instead of producing a
report; with at least one sample column the run is total and returns a
report. -/
theorem c10_empty_header_raises (mL gL : List Str) (aL : Option (List Str)) :
    ((splitOnChar (detect_delimiter (pyStrip (mL.headD []))) (pyStrip (mL.headD []))).drop 1
        = [] →
      run_report mL gL aL = .error "max() arg is an empty sequence".toList)
    ∧ ((splitOnChar (detect_delimiter (pyStrip (mL.headD []))) (pyStrip (mL.headD []))).drop 1
        ≠ [] →
      ∃ r, run_report mL gL aL = .ok r) := by
  constructor
  · intro h
    have hga : (group_assign ((splitOnChar (detect_delimiter (pyStrip (mL.headD [])))
        (pyStrip (mL.headD []))).drop 1)).1 = [] := (group_assign_dict_nil_iff _).mpr h
    have hmax : max_reps_opt (group_assign ((splitOnChar (detect_delimiter
        (pyStrip (mL.headD []))) (pyStrip (mL.headD []))).drop 1)).1 = none := by
      rw [hga]
      rfl
    simp only [run_report]
    rw [hmax]
  · intro h
    have hga : (group_assign ((splitOnChar (detect_delimiter (pyStrip (mL.headD [])))
        (pyStrip (mL.headD []))).drop 1)).1 ≠ [] :=
      fun he => h ((group_assign_dict_nil_iff _).mp he)
    cases hd : (group_assign ((splitOnChar (detect_delimiter (pyStrip (mL.headD [])))
        (pyStrip (mL.headD []))).drop 1)).1.map (fun p => p.2.length) with
    | nil => exact absurd (List.map_eq_nil_iff.mp hd) hga
    | cons a t =>
      have hmax : max_reps_opt (group_assign ((splitOnChar (detect_delimiter
          (pyStrip (mL.headD []))) (pyStrip (mL.headD []))).drop 1)).1
          = some (t.foldl max a) := by
        rw [max_reps_opt, hd]
      simp only [run_report, hmax]
      exact ⟨_, rfl⟩

/-- Witness for C10: a header with only the gene-id column makes the run
fail with the empty-sequence error, while a header with one sample column
yields a report. -/
theorem c10_empty_header_witness :
    run_report ["Gene".toList] [] none
      = .error "max() arg is an empty sequence".toList
    ∧ ∃ r, run_report ["Gene\tA".toList] [] none = .ok r :=
  ⟨(c10_empty_header_raises ["Gene".toList] [] none).1 (by decide),
   (c10_empty_header_raises ["Gene\tA".toList] [] none).2 (by decide)⟩
